/-
Verification of the Transcendia key-resolution and caching core.

Shallow embedding of:
  packages/server/src/services/semantic-engine.ts  (SemanticEngine)
  packages/server/src/services/cache.ts            (CacheService)
  the contribution-approval route handler (PUT /contribute/:id/approve)

Modelling conventions:
  - JS strings are Lean String; toLowerCase is modelled per-char with
    Char.toLower (ASCII scope, which covers every token the key grammar admits).
  - The regex /^([a-z]+):([a-z_]+)(?:\x2bcontext:([a-z_]+))?$/i is embedded as
    the explicit matcher matchCanonical below: since the token classes exclude
    both separators, greedy scanning needs no backtracking and the matcher is
    exactly the regex on all inputs.
  - JS Map is an association list with replace-on-set semantics; Redis is an
    association list plus a connected flag (redis === null in the source).
    Shared-tier expiry (setex) is enforced by the external store and is not
    modelled; every claim about the shared tier reads it immediately.
  - Date.now() is an explicit Nat parameter (milliseconds).
  - JS truthiness on strings: falsy iff the string is empty.
-/

import Mathlib

set_option linter.unusedVariables false

/-! ## Character classes of the key pattern -/

/-- `[a-z]` under the regex i-flag: ASCII letters. -/
def isIntentChar (c : Char) : Bool :=
  (('a' ≤ c) && (c ≤ 'z')) || (('A' ≤ c) && (c ≤ 'Z'))

/-- `[a-z_]` under the regex i-flag: ASCII letters and underscore. -/
def isTokenChar (c : Char) : Bool :=
  isIntentChar c || c = '_'

/-- JS `String.prototype.toLowerCase`, per character (ASCII scope). -/
def lowerStr (cs : List Char) : String :=
  String.mk (cs.map Char.toLower)

/-- Greedy scan: longest prefix of characters satisfying `p`, plus the rest. -/
def spanToken (p : Char → Bool) : List Char → List Char × List Char
  | [] => ([], [])
  | c :: rest =>
    if p c then
      match spanToken p rest with
      | (a, b) => (c :: a, b)
    else ([], c :: rest)

/-- JS `key.split(':')`: all segments, empty segments preserved. -/
def splitOnColon : List Char → List (List Char)
  | [] => [[]]
  | c :: rest =>
    let parts := splitOnColon rest
    if c = ':' then [] :: parts
    else
      match parts with
      | p :: ps => (c :: p) :: ps
      | [] => [[c]]

/-- The anchored match of `/^([a-z]+):([a-z_]+)(?:\x2bcontext:([a-z_]+))?$/i`,
returning the three capture groups (group 3 optional). Because the token
classes exclude ':' and '+', greedy scanning needs no backtracking, so this
decision procedure is exactly the regex. -/
def matchCanonical (cs : List Char) : Option (List Char × List Char × Option (List Char)) :=
  let s1 := spanToken isIntentChar cs
  if s1.1.isEmpty then none
  else if s1.2.head? = some ':' then
    let s2 := spanToken isTokenChar s1.2.tail
    if s2.1.isEmpty then none
    else if s2.2.isEmpty then some (s1.1, s2.1, none)
    else if s2.2.head? = some '+' then
      if (s2.2.tail.take 8).map Char.toLower = "context:".data then
        let s3 := spanToken isTokenChar (s2.2.tail.drop 8)
        if s3.1.isEmpty then none
        else if s3.2.isEmpty then some (s1.1, s2.1, some s3.1)
        else none
      else none
    else none
  else none

/-! ## SemanticEngine -/

/-- Result of `SemanticEngine.parseKey`. -/
structure ParsedKey where
  intent : String
  context : String
  raw : String
deriving DecidableEq, Repr

/-- `SemanticEngine.parseKey`: on a regex match, intent is `match[1]` lowercased
and context is `match[3]` lowercased (or "default"); otherwise the fallback
splits on ':' and uses `parts[0]` / `parts[1]` (empty or missing second part
gives "default"). -/
def parseKey (key : String) : ParsedKey :=
  match matchCanonical key.data with
  | some (g1, _, g3) =>
    { intent := lowerStr g1
      context := match g3 with
        | some g => lowerStr g
        | none => "default"
      raw := key }
  | none =>
    let parts := splitOnColon key.data
    { intent := lowerStr (parts.headD [])
      context := match parts.get? 1 with
        | some p => if p.isEmpty then "default" else lowerStr p
        | none => "default"
      raw := key }

/-- `SemanticEngine.generateKey` (optional context; empty string is falsy in JS). -/
def generateKey (intent : String) (context : Option String) : String :=
  match context with
  | some c => if c = "" then "intent:" ++ intent else "intent:" ++ intent ++ "+context:" ++ c
  | none => "intent:" ++ intent

/-- JS `String.prototype.includes`: `strContains hay needle` holds iff `needle`
occurs contiguously in `hay`. -/
def infixAux (needle : List Char) : List Char → Bool
  | [] => needle.isEmpty
  | c :: rest => needle.isPrefixOf (c :: rest) || infixAux needle rest

def strContains (hay needle : String) : Bool :=
  infixAux needle.data hay.data

/-- `SemanticEngine.isContextRelated`. -/
def isContextRelated (ctx1 ctx2 : String) : Bool :=
  ctx1.startsWith ctx2 || ctx2.startsWith ctx1 ||
    strContains ctx1 ctx2 || strContains ctx2 ctx1

/-- `SemanticEngine.calculateMatchScore`: +10 for exact intent; then exactly one
of +5 (exact context), +1 (candidate context "default"), +2 (related contexts). -/
def calculateMatchScore (keyIntent keyContext targetIntent targetContext : String) : Nat :=
  let base := if keyIntent = targetIntent then 10 else 0
  if keyContext = targetContext then base + 5
  else if keyContext = "default" then base + 1
  else if isContextRelated keyContext targetContext then base + 2
  else base

/-- The loop of `SemanticEngine.findBestMatch`, carrying the two mutable
variables `bestMatch` and `highestScore`; the best is replaced only on a
strictly greater score. -/
def findBestLoop (targetIntent targetContext : String) :
    List ParsedKey → Option ParsedKey × Nat → Option ParsedKey × Nat
  | [], acc => acc
  | key :: rest, (best, highestScore) =>
    let s := calculateMatchScore key.intent key.context targetIntent targetContext
    if highestScore < s then
      findBestLoop targetIntent targetContext rest (some key, s)
    else
      findBestLoop targetIntent targetContext rest (best, highestScore)

/-- `SemanticEngine.findBestMatch`. -/
def findBestMatch (availableKeys : List ParsedKey) (targetIntent targetContext : String) :
    Option ParsedKey :=
  (findBestLoop targetIntent targetContext availableKeys (none, 0)).1

/-! ## CacheService -/

/-- First-binding lookup in an association list (JS Map.get / Redis GET). -/
def assocLookup {α : Type} : List (String × α) → String → Option α
  | [], _ => none
  | e :: rest, k => if e.1 = k then some e.2 else assocLookup rest k

/-- Remove every binding of a key (JS Map.delete / Redis DEL). -/
def assocDelete {α : Type} : List (String × α) → String → List (String × α)
  | [], _ => []
  | e :: rest, k => if e.1 = k then assocDelete rest k else e :: assocDelete rest k

/-- Replace-on-set binding update (JS Map.set / Redis SETEX value part). -/
def assocSet {α : Type} (m : List (String × α)) (k : String) (v : α) : List (String × α) :=
  (k, v) :: assocDelete m k

/-- JS `String.prototype.endsWith`, at the character level. -/
def strEndsWith (s sfx : String) : Bool :=
  sfx.data.isSuffixOf s.data

/-- Redis glob metacharacters: a character that is not read literally in a
`KEYS` pattern. -/
def isGlobSpecial (c : Char) : Bool :=
  c = '*' || c = '?' || c = '[' || c = '\\'

/-- An element of a redis glob character class: a raw character or one
produced by a backslash escape (only raw characters can start a range, as in
redis stringmatchlen). -/
inductive ClassItem where
  | raw (c : Char)
  | escd (c : Char)
deriving DecidableEq, Repr

def ClassItem.char : ClassItem → Char
  | raw c => c
  | escd c => c

/-- Tokens of a redis glob pattern. -/
inductive GlobTok where
  | star
  | qmark
  | lit (c : Char)
  | cls (neg : Bool) (items : List ClassItem)
deriving DecidableEq, Repr

/-- Lexer state: outside any class, right after an opening `[` (a `^` would
negate), or inside a class carrying its negation flag and the items collected
so far in reverse. -/
inductive LexMode where
  | normal
  | classStart
  | inClass (neg : Bool) (acc : List ClassItem)
deriving DecidableEq, Repr

/-- Lexer for redis glob patterns, following redis stringmatchlen syntax:
`*`, `?`, backslash escapes, and `[...]` classes with an optional leading `^`;
a lone trailing backslash stands for itself and an unterminated class extends
to the end of the pattern. -/
def globLex : List Char → LexMode → List GlobTok
  | [], LexMode.normal => []
  | [], LexMode.classStart => [GlobTok.cls false []]
  | [], LexMode.inClass neg acc => [GlobTok.cls neg acc.reverse]
  | c :: rest, LexMode.normal =>
    if c = '*' then GlobTok.star :: globLex rest LexMode.normal
    else if c = '?' then GlobTok.qmark :: globLex rest LexMode.normal
    else if c = '\\' then
      match rest with
      | [] => [GlobTok.lit '\\']
      | d :: rest2 => GlobTok.lit d :: globLex rest2 LexMode.normal
    else if c = '[' then globLex rest LexMode.classStart
    else GlobTok.lit c :: globLex rest LexMode.normal
  | c :: rest, LexMode.classStart =>
    if c = '^' then globLex rest (LexMode.inClass true [])
    else if c = ']' then GlobTok.cls false [] :: globLex rest LexMode.normal
    else if c = '\\' then
      match rest with
      | [] => [GlobTok.cls false [ClassItem.raw '\\']]
      | d :: rest2 => globLex rest2 (LexMode.inClass false [ClassItem.escd d])
    else globLex rest (LexMode.inClass false [ClassItem.raw c])
  | c :: rest, LexMode.inClass neg acc =>
    if c = ']' then GlobTok.cls neg acc.reverse :: globLex rest LexMode.normal
    else if c = '\\' then
      match rest with
      | [] => [GlobTok.cls neg (ClassItem.raw '\\' :: acc).reverse]
      | d :: rest2 => globLex rest2 (LexMode.inClass neg (ClassItem.escd d :: acc))
    else globLex rest (LexMode.inClass neg (ClassItem.raw c :: acc))

/-- Membership of a character in a class item list, with `a-b` ranges whose
bounds are swapped when reversed, as redis does; an escaped character cannot
start a range. -/
def classItemsMatch (c : Char) : List ClassItem → Bool
  | [] => false
  | ClassItem.raw a :: ClassItem.raw '-' :: i :: rest =>
    (min a i.char ≤ c && c ≤ max a i.char) || classItemsMatch c rest
  | i :: rest => (i.char = c) || classItemsMatch c rest

/-- Matcher for lexed redis glob patterns: every token but `star` consumes
exactly one character, and `star` matches any (possibly empty) suffix. -/
def tokMatch : List GlobTok → List Char → Bool
  | [], s => s.isEmpty
  | GlobTok.star :: prest, s => s.tails.any (fun t => tokMatch prest t)
  | GlobTok.qmark :: prest, s =>
    match s with
    | [] => false
    | _ :: srest => tokMatch prest srest
  | GlobTok.lit c :: prest, s =>
    match s with
    | [] => false
    | d :: srest => (c = d) && tokMatch prest srest
  | GlobTok.cls neg items :: prest, s =>
    match s with
    | [] => false
    | d :: srest =>
      (if neg then !(classItemsMatch d items) else classItemsMatch d items)
        && tokMatch prest srest

/-- Whether a redis `KEYS` glob pattern matches a key (case-sensitive). -/
def globMatch (pattern s : List Char) : Bool :=
  tokMatch (globLex pattern LexMode.normal) s

/-- Remove every binding whose key matches the glob pattern: the effect of
`redis.keys(pattern)` followed by `redis.del(...keys)`. -/
def deleteByGlob {α : Type} : List (String × α) → List Char → List (String × α)
  | [], _ => []
  | e :: rest, pat =>
    if globMatch pat e.1.data then deleteByGlob rest pat
    else e :: deleteByGlob rest pat

/-- `CACHE_TTL = 3600` seconds. -/
def CACHE_TTL : Nat := 3600

/-- State of a `CacheService` instance: the shared tier (`this.redis`, `null`
modelled by `redisConnected = false`) and the local tier (`this.memoryCache`,
value paired with its `expiresAt` millisecond timestamp). -/
structure CacheState where
  redisConnected : Bool
  redisStore : List (String × String)
  memoryCache : List (String × (String × Nat))
deriving DecidableEq, Repr

/-- `CacheService.getCacheKey`. -/
def CacheService.getCacheKey (key lang : String) : String :=
  key ++ ":" ++ lang

/-- The local-tier fallback block of `CacheService.get`: an entry is honored
only while `expiresAt > Date.now()`. -/
def memoryGet (m : List (String × (String × Nat))) (now : Nat) (cacheKey : String) :
    Option String :=
  match assocLookup m cacheKey with
  | some (v, expiresAt) => if now < expiresAt then some v else none
  | none => none

/-- `CacheService.get`: Redis first when connected; a falsy Redis reply (null
or the empty string) falls through to the local tier. -/
def CacheService.get (s : CacheState) (now : Nat) (key lang : String) : Option String :=
  let cacheKey := CacheService.getCacheKey key lang
  if s.redisConnected then
    match assocLookup s.redisStore cacheKey with
    | some v => if v = "" then memoryGet s.memoryCache now cacheKey else some v
    | none => memoryGet s.memoryCache now cacheKey
  else
    memoryGet s.memoryCache now cacheKey

/-- `CacheService.set`: SETEX on the shared tier when connected (then return);
otherwise a local-tier write expiring at `now + CACHE_TTL * 1000`. -/
def CacheService.set (s : CacheState) (now : Nat) (key lang value : String) : CacheState :=
  let cacheKey := CacheService.getCacheKey key lang
  if s.redisConnected then
    { s with redisStore := assocSet s.redisStore cacheKey value }
  else
    { s with memoryCache := assocSet s.memoryCache cacheKey (value, now + CACHE_TTL * 1000) }

/-- `CacheService.delete`: removes the composite key from the shared tier when
connected, and from the local tier always. -/
def CacheService.delete (s : CacheState) (key lang : String) : CacheState :=
  let cacheKey := CacheService.getCacheKey key lang
  { s with
    redisStore := if s.redisConnected then assocDelete s.redisStore cacheKey else s.redisStore
    memoryCache := assocDelete s.memoryCache cacheKey }

/-- The local-tier loop of `CacheService.clearLanguage`: iterate the Map keys,
deleting those that end with `":" + lang`. -/
def clearLanguageMemLoop (lang : String) :
    List String → List (String × (String × Nat)) → List (String × (String × Nat))
  | [], m => m
  | k :: rest, m =>
    clearLanguageMemLoop lang rest (if strEndsWith k (":" ++ lang) then assocDelete m k else m)

/-- `CacheService.clearLanguage`. -/
def CacheService.clearLanguage (s : CacheState) (lang : String) : CacheState :=
  { s with
    redisStore :=
      if s.redisConnected then deleteByGlob s.redisStore (("*:" ++ lang).data)
      else s.redisStore
    memoryCache := clearLanguageMemLoop lang (s.memoryCache.map Prod.fst) s.memoryCache }

/-! ## Contribution approval route (PUT /contribute/:id/approve) -/

structure Contribution where
  id : String
  keyId : String
  languageId : String
  suggestedValue : String
  status : String
deriving DecidableEq, Repr

structure Translation where
  keyId : String
  languageId : String
  value : String
  status : String
deriving DecidableEq, Repr

structure TranslationKey where
  id : String
  key : String
  intent : String
  context : String
deriving DecidableEq, Repr

structure LanguageRow where
  id : String
  code : String
deriving DecidableEq, Repr

/-- Server-side state visible to the approve handler: the four database tables
touched by the route plus the process-wide cache service instance. -/
structure ServerState where
  contributions : List Contribution
  translations : List Translation
  translationKeys : List TranslationKey
  languages : List LanguageRow
  cache : CacheState
deriving DecidableEq, Repr

inductive ApproveResult where
  | notFound
  | ok (key value lang : String)
deriving DecidableEq, Repr

/-- The approve handler: find the contribution; on 404 do nothing; otherwise
mark it APPROVED and upsert the translation for its (keyId, languageId). The
handler performs no cache operation (it does not reference the cache service),
which the embedding mirrors by leaving the `cache` field untouched. The joined
key string and language code (Prisma `include`) feed only the response. -/
def approveContribution (st : ServerState) (cid : String) : ServerState × ApproveResult :=
  match st.contributions.find? (fun c => c.id = cid) with
  | none => (st, ApproveResult.notFound)
  | some c =>
    let contributions := st.contributions.map
      (fun c2 => if c2.id = cid then { c2 with status := "APPROVED" } else c2)
    let translations :=
      if st.translations.any (fun t => t.keyId = c.keyId && t.languageId = c.languageId) then
        st.translations.map (fun t =>
          if t.keyId = c.keyId && t.languageId = c.languageId then
            { t with value := c.suggestedValue, status := "APPROVED" }
          else t)
      else
        st.translations ++
          [{ keyId := c.keyId, languageId := c.languageId
             value := c.suggestedValue, status := "APPROVED" }]
    let keyStr := match st.translationKeys.find? (fun k => k.id = c.keyId) with
      | some k => k.key
      | none => ""
    let langCode := match st.languages.find? (fun l => l.id = c.languageId) with
      | some l => l.code
      | none => ""
    ({ st with contributions := contributions, translations := translations },
      ApproveResult.ok keyStr c.suggestedValue langCode)

/-! ## Helper lemmas -/

lemma spanToken_append (p : Char → Bool) (cs : List Char) :
    (spanToken p cs).1 ++ (spanToken p cs).2 = cs := by
  induction cs with
  | nil => rfl
  | cons c rest ih =>
    rcases hsp : spanToken p rest with ⟨a, b⟩
    rw [hsp] at ih
    by_cases h : p c = true
    · simp only [spanToken, h, if_pos, hsp]
      simpa using ih
    · simp [spanToken, h]

lemma splitOnColon_no_colon (cs : List Char) (h : ':' ∉ cs) : splitOnColon cs = [cs] := by
  induction cs with
  | nil => rfl
  | cons c rest ih =>
    have hc : ¬ (c = ':') := fun e => h (e ▸ List.mem_cons_self c rest)
    have hr : ':' ∉ rest := fun m => h (List.mem_cons_of_mem c m)
    simp [splitOnColon, ih hr, hc]

lemma matchCanonical_none_of_no_colon (cs : List Char) (h : ':' ∉ cs) :
    matchCanonical cs = none := by
  have happ := spanToken_append isIntentChar cs
  have hhead : ¬ ((spanToken isIntentChar cs).2.head? = some ':') := by
    cases hsp : (spanToken isIntentChar cs).2 with
    | nil => simp
    | cons r rs =>
      have hm : r ∈ cs := by
        rw [← happ, hsp]
        exact List.mem_append_right _ (List.mem_cons_self _ _)
      have hr : r ≠ ':' := fun e => h (e ▸ hm)
      simp [hr]
  simp only [matchCanonical]
  split_ifs <;> rfl

lemma findBestLoop_append (ti tc : String) (l1 l2 : List ParsedKey)
    (acc : Option ParsedKey × Nat) :
    findBestLoop ti tc (l1 ++ l2) acc = findBestLoop ti tc l2 (findBestLoop ti tc l1 acc) := by
  induction l1 generalizing acc with
  | nil => rfl
  | cons k rest ih =>
    rcases acc with ⟨b, hi⟩
    simp only [List.cons_append, findBestLoop]
    split_ifs <;> exact ih _

lemma findBestLoop_no_update (ti tc : String) (l : List ParsedKey) (b : Option ParsedKey)
    (hi : Nat) (h : ∀ k ∈ l, calculateMatchScore k.intent k.context ti tc ≤ hi) :
    findBestLoop ti tc l (b, hi) = (b, hi) := by
  induction l with
  | nil => rfl
  | cons k rest ih =>
    have hk := h k (List.mem_cons_self _ _)
    simp only [findBestLoop]
    rw [if_neg (Nat.not_lt.mpr hk)]
    exact ih (fun k2 hm => h k2 (List.mem_cons_of_mem _ hm))

lemma findBestLoop_snd_lt (ti tc : String) (x : Nat) (l : List ParsedKey)
    (h : ∀ k ∈ l, calculateMatchScore k.intent k.context ti tc < x) :
    ∀ (b : Option ParsedKey) (hi : Nat), hi < x → (findBestLoop ti tc l (b, hi)).2 < x := by
  induction l with
  | nil => intro b hi hhi; exact hhi
  | cons k rest ih =>
    intro b hi hhi
    have hrest := fun k2 hm => h k2 (List.mem_cons_of_mem _ hm)
    simp only [findBestLoop]
    split_ifs with hs
    · exact ih hrest _ _ (h k (List.mem_cons_self _ _))
    · exact ih hrest _ _ hhi

lemma findBestLoop_some_isSome (ti tc : String) (l : List ParsedKey) :
    ∀ (k0 : ParsedKey) (hi : Nat), (findBestLoop ti tc l (some k0, hi)).1.isSome := by
  induction l with
  | nil => intro k0 hi; rfl
  | cons k rest ih =>
    intro k0 hi
    simp only [findBestLoop]
    split_ifs
    · exact ih _ _
    · exact ih _ _

lemma findBestLoop_none_bound (ti tc : String) (l : List ParsedKey) :
    ∀ hi, (findBestLoop ti tc l (none, hi)).1 = none →
      ∀ k ∈ l, calculateMatchScore k.intent k.context ti tc ≤ hi := by
  induction l with
  | nil => intro hi _ k hk; cases hk
  | cons k rest ih =>
    intro hi hnone k2 hk2
    simp only [findBestLoop] at hnone
    by_cases hs : hi < calculateMatchScore k.intent k.context ti tc
    · rw [if_pos hs] at hnone
      have hsome :=
        findBestLoop_some_isSome ti tc rest k (calculateMatchScore k.intent k.context ti tc)
      rw [hnone] at hsome
      cases hsome
    · rw [if_neg hs] at hnone
      rcases List.mem_cons.mp hk2 with h | h
      · subst h; omega
      · exact ih hi hnone k2 h

lemma findBestLoop_some_src (ti tc : String) (l : List ParsedKey) :
    ∀ (b : Option ParsedKey) (hi : Nat) (k : ParsedKey),
      (findBestLoop ti tc l (b, hi)).1 = some k →
      b = some k ∨ (k ∈ l ∧ hi < calculateMatchScore k.intent k.context ti tc) := by
  induction l with
  | nil => intro b hi k h; exact Or.inl h
  | cons k1 rest ih =>
    intro b hi k h
    simp only [findBestLoop] at h
    by_cases hs : hi < calculateMatchScore k1.intent k1.context ti tc
    · rw [if_pos hs] at h
      rcases ih _ _ _ h with h2 | h2
      · injection h2 with e
        subst e
        exact Or.inr ⟨List.mem_cons_self _ _, hs⟩
      · exact Or.inr ⟨List.mem_cons_of_mem _ h2.1, lt_trans hs h2.2⟩
    · rw [if_neg hs] at h
      rcases ih _ _ _ h with h2 | h2
      · exact Or.inl h2
      · exact Or.inr ⟨List.mem_cons_of_mem _ h2.1, h2.2⟩

lemma assocLookup_delete {α : Type} (m : List (String × α)) (k k2 : String) :
    assocLookup (assocDelete m k) k2 = if k2 = k then none else assocLookup m k2 := by
  induction m with
  | nil => simp [assocDelete, assocLookup]
  | cons e rest ih =>
    simp only [assocDelete]
    by_cases h1 : e.1 = k
    · rw [if_pos h1, ih]
      by_cases h2 : k2 = k
      · simp [h2]
      · rw [if_neg h2, if_neg h2]
        simp only [assocLookup]
        rw [if_neg (fun e2 : e.1 = k2 => h2 (e2.symm.trans h1))]
    · rw [if_neg h1]
      simp only [assocLookup]
      by_cases h3 : e.1 = k2
      · rw [if_pos h3, if_pos h3, if_neg (fun e2 => h1 (h3.trans e2))]
      · rw [if_neg h3, if_neg h3, ih]

lemma assocLookup_set_self {α : Type} (m : List (String × α)) (k : String) (v : α) :
    assocLookup (assocSet m k v) k = some v := by
  simp [assocSet, assocLookup]

lemma assocLookup_not_mem {α : Type} (m : List (String × α)) (k : String)
    (h : k ∉ m.map Prod.fst) : assocLookup m k = none := by
  induction m with
  | nil => rfl
  | cons e rest ih =>
    simp only [List.map_cons, List.mem_cons] at h
    push_neg at h
    simp only [assocLookup]
    rw [if_neg (fun e2 => h.1 e2.symm)]
    exact ih h.2

lemma assocLookup_deleteByGlob {α : Type} (m : List (String × α)) (pat : List Char) (k : String) :
    assocLookup (deleteByGlob m pat) k
      = if globMatch pat k.data = true then none else assocLookup m k := by
  induction m with
  | nil => split <;> rfl
  | cons e rest ih =>
    simp only [deleteByGlob]
    by_cases he : globMatch pat e.1.data = true
    · rw [if_pos he, ih]
      by_cases hk : globMatch pat k.data = true
      · rw [if_pos hk, if_pos hk]
      · rw [if_neg hk, if_neg hk]
        simp only [assocLookup]
        rw [if_neg (fun e2 : e.1 = k => hk (e2 ▸ he))]
    · rw [if_neg he]
      simp only [assocLookup]
      by_cases h3 : e.1 = k
      · rw [if_pos h3, if_neg (fun hk : globMatch pat k.data = true => he (h3 ▸ hk)), if_pos h3]
      · rw [if_neg h3, ih]
        by_cases hk : globMatch pat k.data = true
        · rw [if_pos hk, if_pos hk]
        · rw [if_neg hk, if_neg hk, if_neg h3]

lemma globLex_literal (cs : List Char) (h : ∀ c ∈ cs, isGlobSpecial c = false) :
    globLex cs LexMode.normal = cs.map GlobTok.lit := by
  induction cs with
  | nil => rfl
  | cons c rest ih =>
    have hc := h c (List.mem_cons_self _ _)
    simp only [isGlobSpecial, Bool.or_eq_false_iff, decide_eq_false_iff_not] at hc
    rw [globLex.eq_def]
    simp only []
    rw [if_neg hc.1.1.1, if_neg hc.1.1.2, if_neg hc.2, if_neg hc.1.2,
      ih (fun d hd => h d (List.mem_cons_of_mem _ hd))]
    rfl

lemma tokMatch_lits (ls t : List Char) :
    tokMatch (ls.map GlobTok.lit) t = true ↔ ls = t := by
  induction ls generalizing t with
  | nil => cases t <;> simp [tokMatch]
  | cons c ls2 ih =>
    cases t with
    | nil => simp [tokMatch]
    | cons d ts => simp [tokMatch, ih]

lemma globMatch_star_literal (ls : List Char) (h : ∀ c ∈ ls, isGlobSpecial c = false)
    (key : List Char) :
    globMatch ('*' :: ':' :: ls) key = (':' :: ls).isSuffixOf key := by
  have h2 : ∀ c ∈ ':' :: ls, isGlobSpecial c = false := by
    intro c hc
    rcases List.mem_cons.mp hc with e | e
    · subst e; rfl
    · exact h c e
  have hlex : globLex ('*' :: ':' :: ls) LexMode.normal
      = GlobTok.star :: (':' :: ls).map GlobTok.lit := by
    rw [show globLex ('*' :: ':' :: ls) LexMode.normal
        = GlobTok.star :: globLex (':' :: ls) LexMode.normal from by
      rw [globLex.eq_def]
      simp]
    rw [globLex_literal _ h2]
  rw [Bool.eq_iff_iff]
  unfold globMatch
  rw [hlex]
  constructor
  · intro hm
    have hm2 : key.tails.any (fun t => tokMatch ((':' :: ls).map GlobTok.lit) t) = true := hm
    rw [List.any_eq_true] at hm2
    obtain ⟨t, ht, hmt⟩ := hm2
    rw [List.isSuffixOf_iff_suffix, (tokMatch_lits _ _).mp hmt]
    exact (List.mem_tails _ _).mp ht
  · intro hs
    rw [List.isSuffixOf_iff_suffix] at hs
    show key.tails.any (fun t => tokMatch ((':' :: ls).map GlobTok.lit) t) = true
    rw [List.any_eq_true]
    exact ⟨':' :: ls, (List.mem_tails _ _).mpr hs, (tokMatch_lits _ _).mpr rfl⟩

lemma clearLanguageMemLoop_lookup (lang : String) (ks : List String)
    (m : List (String × (String × Nat))) (ck : String) :
    assocLookup (clearLanguageMemLoop lang ks m) ck
      = if ck ∈ ks ∧ strEndsWith ck (":" ++ lang) = true then none else assocLookup m ck := by
  induction ks generalizing m with
  | nil => simp [clearLanguageMemLoop]
  | cons k rest ih =>
    simp only [clearLanguageMemLoop]
    rw [ih]
    by_cases hck : ck ∈ rest ∧ strEndsWith ck (":" ++ lang) = true
    · rw [if_pos hck, if_pos ⟨List.mem_cons_of_mem _ hck.1, hck.2⟩]
    · rw [if_neg hck]
      by_cases hk : strEndsWith k (":" ++ lang) = true
      · rw [if_pos hk, assocLookup_delete]
        by_cases he : ck = k
        · subst he
          rw [if_pos rfl, if_pos ⟨List.mem_cons_self _ _, hk⟩]
        · rw [if_neg he, if_neg (fun hc : ck ∈ k :: rest ∧ strEndsWith ck (":" ++ lang) = true => by
            rcases List.mem_cons.mp hc.1 with e | e
            · exact he e
            · exact hck ⟨e, hc.2⟩)]
      · rw [if_neg hk, if_neg (fun hc : ck ∈ k :: rest ∧ strEndsWith ck (":" ++ lang) = true => by
          rcases List.mem_cons.mp hc.1 with e | e
          · subst e; exact hk hc.2
          · exact hck ⟨e, hc.2⟩)]

/-! ## Claim theorems -/

/-- C1: the spec asserts that parsing a canonical string intent:I+context:C
yields intent I; on the spec's own scenario input the code instead returns the
literal first token "intent" (the regex group 2 capturing I is discarded),
while the context component and generateKey behave exactly as claimed. -/
theorem parseKey_canonical_intent_is_literal :
    (parseKey "intent:greeting+context:app_entry").intent = "intent"
    ∧ (parseKey "intent:greeting+context:app_entry").intent ≠ "greeting"
    ∧ (parseKey "intent:greeting+context:app_entry").context = "app_entry"
    ∧ generateKey "greeting" (some "app_entry") = "intent:greeting+context:app_entry" :=
  ⟨rfl, by decide, rfl, rfl⟩

/-- The concrete server state for the approval scenario: one OPEN contribution
"c1" suggesting "Merhaba" for key "intent:greeting" in language "tr", with a
live stale cached value "Eski" for that (key, lang) in the local tier. -/
def c2DemoState : ServerState :=
  { contributions := [⟨"c1", "k1", "l1", "Merhaba", "OPEN"⟩]
    translations := []
    translationKeys := [⟨"k1", "intent:greeting", "intent", "greeting"⟩]
    languages := [⟨"l1", "tr"⟩]
    cache := { redisConnected := false, redisStore := []
               memoryCache := [("intent:greeting:tr", ("Eski", 999999))] } }

/-- C2: the approve handler never invokes any cache operation: for every state
and contribution id the cache component is unchanged by approval, and in the
concrete scenario a successful approval leaves the stale cached value
observable through get — contradicting the claimed delete(key, lang)
obligation. -/
theorem approve_performs_no_cache_invalidation :
    (∀ (st : ServerState) (cid : String), ((approveContribution st cid).1).cache = st.cache)
    ∧ (approveContribution c2DemoState "c1").2 = ApproveResult.ok "intent:greeting" "Merhaba" "tr"
    ∧ CacheService.get ((approveContribution c2DemoState "c1").1).cache 0 "intent:greeting" "tr"
        = some "Eski" := by
  refine ⟨?_, by decide, by decide⟩
  intro st cid
  rcases hf : st.contributions.find? (fun c => c.id = cid) with _ | c <;>
    simp [approveContribution, hf]

/-- C3, counterexample: with the shared tier reachable, set of the empty string
followed immediately by get returns absent, not the stored value — the falsy
guard in get skips an empty shared-tier reply. -/
theorem cache_roundtrip_empty_value_counterexample :
    CacheService.get
        (CacheService.set { redisConnected := true, redisStore := [], memoryCache := [] }
          0 "intent:greeting" "tr" "")
        0 "intent:greeting" "tr" = none
    ∧ (none : Option String) ≠ some "" :=
  ⟨rfl, by decide⟩

/-- C3, amended: set followed immediately by get returns the value for every
nonempty value in both connection modes, and for every value (empty included)
when the shared tier is unreachable. -/
theorem cache_roundtrip_amended (s : CacheState) (now : Nat) (key lang value : String) :
    (value ≠ "" → CacheService.get (CacheService.set s now key lang value) now key lang = some value)
    ∧ (s.redisConnected = false →
        CacheService.get (CacheService.set s now key lang value) now key lang = some value) := by
  have hmem : s.redisConnected = false →
      CacheService.get (CacheService.set s now key lang value) now key lang = some value := by
    intro hconn
    have hlt : now < now + CACHE_TTL * 1000 := by simp [CACHE_TTL]
    simp [CacheService.set, CacheService.get, hconn, memoryGet, assocLookup_set_self, hlt]
  constructor
  · intro hv
    cases hconn : s.redisConnected with
    | true => simp [CacheService.set, CacheService.get, hconn, assocLookup_set_self, hv]
    | false => exact hmem hconn
  · exact hmem

/-- C3 witness: a nonempty value round-trips through the shared tier. -/
theorem cache_roundtrip_amended_witness :
    CacheService.get
        (CacheService.set { redisConnected := true, redisStore := [], memoryCache := [] }
          5 "k" "en" "Merhaba") 5 "k" "en" = some "Merhaba" :=
  (cache_roundtrip_amended { redisConnected := true, redisStore := [], memoryCache := [] }
    5 "k" "en" "Merhaba").1 (by decide)

/-- C4, counterexample: "a:b:c" does not match the canonical pattern, and the
fallback sets the context to "b" — the segment between the first and second
separators — not to the entire right side "b:c" as claimed. -/
theorem parseKey_fallback_multicolon_counterexample :
    matchCanonical ("a:b:c".data) = none
    ∧ (parseKey "a:b:c").context = "b"
    ∧ (parseKey "a:b:c").context ≠ "b:c" :=
  ⟨rfl, rfl, by decide⟩

/-- C4, amended: on a raw string that does not match the canonical pattern, the
fallback lowercases the part before the first ':' as the intent, and takes as
context the second split segment (the part strictly between the first and
second ':') lowercased, or "default" when that segment is missing or empty; in
particular a string with no ':' at all parses to (whole string lowercased,
"default"). -/
theorem parseKey_fallback_amended (raw : String) :
    (matchCanonical raw.data = none →
      (parseKey raw).intent = lowerStr ((splitOnColon raw.data).headD [])
      ∧ (parseKey raw).context
          = (match (splitOnColon raw.data).get? 1 with
             | some p => if p.isEmpty then "default" else lowerStr p
             | none => "default"))
    ∧ (':' ∉ raw.data →
      (parseKey raw).intent = lowerStr raw.data ∧ (parseKey raw).context = "default") := by
  constructor
  · intro h
    constructor
    · simp [parseKey, h]
    · simp [parseKey, h]
  · intro h
    have hm := matchCanonical_none_of_no_colon raw.data h
    have hs := splitOnColon_no_colon raw.data h
    constructor
    · simp [parseKey, hm, hs]
    · simp [parseKey, hm, hs]

/-- C4 witness: a separator-free raw string parses to its lowercase form with
the "default" context. -/
theorem parseKey_fallback_amended_witness :
    (parseKey "greeting").intent = lowerStr ("greeting".data)
    ∧ (parseKey "greeting").context = "default" :=
  (parseKey_fallback_amended "greeting").2 (by decide)

/-- C5: the embedding of findBestMatch is a pure function, so repeated calls
agree definitionally; the substantive half of the claim is the tie-break: the
first candidate that strictly beats every earlier candidate and is not
strictly beaten by any later one (later ties allowed) is returned, because the
loop replaces the current best only on a strictly greater score. -/
theorem findBestMatch_first_seen_ties (ti tc : String) (l1 l2 : List ParsedKey) (k : ParsedKey)
    (h1 : ∀ k2 ∈ l1, calculateMatchScore k2.intent k2.context ti tc
            < calculateMatchScore k.intent k.context ti tc)
    (h2 : ∀ k2 ∈ l2, calculateMatchScore k2.intent k2.context ti tc
            ≤ calculateMatchScore k.intent k.context ti tc)
    (h0 : 0 < calculateMatchScore k.intent k.context ti tc) :
    findBestMatch (l1 ++ k :: l2) ti tc = some k := by
  unfold findBestMatch
  rw [findBestLoop_append]
  rcases hp : findBestLoop ti tc l1 (none, 0) with ⟨b1, hi1⟩
  have hlt : hi1 < calculateMatchScore k.intent k.context ti tc := by
    have hx := findBestLoop_snd_lt ti tc _ l1 h1 none 0 h0
    rw [hp] at hx
    exact hx
  simp only [findBestLoop]
  rw [if_pos hlt, findBestLoop_no_update ti tc l2 _ _ h2]

/-- C5 witness: with a genuine tie (two candidates scoring 15), the first-seen
one wins. -/
theorem findBestMatch_first_seen_ties_witness :
    findBestMatch
      [⟨"other", "app_entry", "r1"⟩, ⟨"greeting", "app_entry", "r2"⟩,
        ⟨"greeting", "app_entry", "r3"⟩] "greeting" "app_entry"
      = some ⟨"greeting", "app_entry", "r2"⟩ :=
  findBestMatch_first_seen_ties "greeting" "app_entry"
    [⟨"other", "app_entry", "r1"⟩] [⟨"greeting", "app_entry", "r3"⟩]
    ⟨"greeting", "app_entry", "r2"⟩ (by decide) (by decide) (by decide)

/-- C6: the local tier never serves a dead entry: when the shared tier is
unreachable, get returns absent whenever the stored expiration timestamp is
not strictly in the future, and an entry written at time t is absent from get
at every time from t + TTL milliseconds on. -/
theorem cache_local_ttl_expiry (s : CacheState) (now : Nat) (key lang : String)
    (h : s.redisConnected = false) :
    (∀ v exp, assocLookup s.memoryCache (CacheService.getCacheKey key lang) = some (v, exp) →
        exp ≤ now → CacheService.get s now key lang = none)
    ∧ (∀ t v, t + CACHE_TTL * 1000 ≤ now →
        CacheService.get (CacheService.set s t key lang v) now key lang = none) := by
  constructor
  · intro v exp hl hexp
    simp [CacheService.get, h, memoryGet, hl, Nat.not_lt.mpr hexp]
  · intro t v htt
    have hnlt : ¬ (now < t + CACHE_TTL * 1000) := by omega
    simp [CacheService.get, CacheService.set, h, memoryGet, assocLookup_set_self, hnlt]

/-- C6 witness: an entry that expired at 5 is absent at 10. -/
theorem cache_local_ttl_expiry_witness :
    CacheService.get
      { redisConnected := false, redisStore := [], memoryCache := [("k:en", ("x", 5))] }
      10 "k" "en" = none :=
  (cache_local_ttl_expiry
    { redisConnected := false, redisStore := [], memoryCache := [("k:en", ("x", 5))] }
    10 "k" "en" rfl).1 "x" 5 (by decide) (by decide)

/-- C7: an exact-intent/exact-context candidate scores 15, strictly above the
score of every candidate whose intent differs from the target, whatever that
candidate's context term contributes (at most 5). -/
theorem exact_match_dominates_other_intent (ti tc ki kc : String) (h : ki ≠ ti) :
    calculateMatchScore ki kc ti tc < calculateMatchScore ti tc ti tc := by
  have h15 : calculateMatchScore ti tc ti tc = 15 := by simp [calculateMatchScore]
  rw [h15]
  simp only [calculateMatchScore, if_neg h]
  split_ifs <;> omega

/-- C7 witness. -/
theorem exact_match_dominates_other_intent_witness :
    calculateMatchScore "farewell" "app_entry" "greeting" "app_entry"
      < calculateMatchScore "greeting" "app_entry" "greeting" "app_entry" :=
  exact_match_dominates_other_intent "greeting" "app_entry" "farewell" "app_entry" (by decide)

/-- C8: findBestMatch returns absent exactly when every candidate scores zero
against the target; any returned candidate comes from the list and has a
strictly positive score. -/
theorem findBestMatch_none_iff_no_positive (ti tc : String) (keys : List ParsedKey) :
    (findBestMatch keys ti tc = none
      ↔ ∀ k ∈ keys, calculateMatchScore k.intent k.context ti tc = 0)
    ∧ (∀ k, findBestMatch keys ti tc = some k →
        k ∈ keys ∧ 0 < calculateMatchScore k.intent k.context ti tc) := by
  constructor
  · constructor
    · intro h k hk
      have hb := findBestLoop_none_bound ti tc keys 0 h k hk
      omega
    · intro h
      unfold findBestMatch
      rw [findBestLoop_no_update ti tc keys none 0 (fun k hk => le_of_eq (h k hk))]
  · intro k h
    rcases findBestLoop_some_src ti tc keys none 0 k h with h2 | h2
    · cases h2
    · exact h2

/-- C8 witness: a positive-scoring candidate is returned with a positive score. -/
theorem findBestMatch_none_iff_no_positive_witness :
    (⟨"greeting", "app_entry", "r"⟩ : ParsedKey) ∈ [(⟨"greeting", "app_entry", "r"⟩ : ParsedKey)]
    ∧ 0 < calculateMatchScore "greeting" "app_entry" "greeting" "app_entry" :=
  (findBestMatch_none_iff_no_positive "greeting" "app_entry"
    [⟨"greeting", "app_entry", "r"⟩]).2 ⟨"greeting", "app_entry", "r"⟩ rfl

/-- C9, counterexample: for the language code "t*" the shared-tier clear runs
the redis glob pattern *:t*, which also matches keys that do not end with
":t*": the previously present entry "x:tape:en" is deleted although its
composite key lacks the suffix, so clearLanguage does not leave every
non-":lang" entry unchanged. -/
theorem clearLanguage_glob_counterexample :
    strEndsWith "x:tape:en" (":" ++ "t*") = false
    ∧ assocLookup [(("x:tape:en" : String), ("v" : String))] "x:tape:en" = some "v"
    ∧ assocLookup
        ((CacheService.clearLanguage
            { redisConnected := true, redisStore := [("x:tape:en", "v")], memoryCache := [] }
            "t*").redisStore) "x:tape:en" = none :=
  ⟨by decide, by decide, by decide⟩

/-- C9, amended: clearLanguage removes exactly the entries whose composite key
ends in ":" ++ lang — in the local tier for every language code, and in the
shared tier (when connected) for every language code free of redis glob
metacharacters; a metacharacter-bearing code makes the shared tier delete
every key matching the glob *:lang instead, which can include keys without
the suffix. -/
theorem clearLanguage_exact_language_suffix (s : CacheState) (lang ck : String) :
    (assocLookup ((CacheService.clearLanguage s lang).memoryCache) ck
        = if strEndsWith ck (":" ++ lang) = true then none else assocLookup s.memoryCache ck)
    ∧ (s.redisConnected = true → (∀ c ∈ lang.data, isGlobSpecial c = false) →
        assocLookup ((CacheService.clearLanguage s lang).redisStore) ck
          = if strEndsWith ck (":" ++ lang) = true then none else assocLookup s.redisStore ck) := by
  constructor
  · have hmem : (CacheService.clearLanguage s lang).memoryCache
        = clearLanguageMemLoop lang (s.memoryCache.map Prod.fst) s.memoryCache := rfl
    rw [hmem, clearLanguageMemLoop_lookup]
    by_cases hend : strEndsWith ck (":" ++ lang) = true
    · rw [if_pos hend]
      by_cases hin : ck ∈ s.memoryCache.map Prod.fst
      · rw [if_pos ⟨hin, hend⟩]
      · rw [if_neg (fun hc => hin hc.1), assocLookup_not_mem _ _ hin]
    · rw [if_neg hend, if_neg (fun hc => hend hc.2)]
  · intro hconn hfree
    have hred : (CacheService.clearLanguage s lang).redisStore
        = deleteByGlob s.redisStore (("*:" ++ lang).data) := by
      simp [CacheService.clearLanguage, hconn]
    have hdata : ("*:" ++ lang).data = '*' :: ':' :: lang.data := by
      rw [String.data_append]
      rfl
    have hsfx : ((":" : String) ++ lang).data = ':' :: lang.data := by
      rw [String.data_append]
      rfl
    rw [hred, assocLookup_deleteByGlob, hdata,
      globMatch_star_literal lang.data hfree ck.data]
    simp only [strEndsWith, hsfx]

/-- C9 witness: in a mixed-language shared tier with a glob-free language
code, the ":tr" entry is gone after clearLanguage "tr". -/
theorem clearLanguage_exact_language_suffix_witness :
    assocLookup
      ((CacheService.clearLanguage
          { redisConnected := true, redisStore := [("a:en", "x"), ("b:tr", "y")],
            memoryCache := [("c:tr", ("z", 9))] } "tr").redisStore) "b:tr" = none := by
  have h := (clearLanguage_exact_language_suffix
    { redisConnected := true, redisStore := [("a:en", "x"), ("b:tr", "y")],
      memoryCache := [("c:tr", ("z", 9))] } "tr" "b:tr").2 rfl (by decide)
  rw [h, if_pos (by decide)]

/-- C10: a falsy (empty-string) shared-tier reply is treated as a miss: get
then behaves exactly as the local-tier fallback alone, and in particular
returns absent when the local tier has no live entry for the composite key. -/
theorem get_shared_empty_string_miss (s : CacheState) (now : Nat) (key lang : String)
    (h1 : s.redisConnected = true)
    (h2 : assocLookup s.redisStore (CacheService.getCacheKey key lang) = some "") :
    CacheService.get s now key lang
        = memoryGet s.memoryCache now (CacheService.getCacheKey key lang)
    ∧ (memoryGet s.memoryCache now (CacheService.getCacheKey key lang) = none →
        CacheService.get s now key lang = none) := by
  have hmain : CacheService.get s now key lang
      = memoryGet s.memoryCache now (CacheService.getCacheKey key lang) := by
    simp [CacheService.get, h1, h2]
  exact ⟨hmain, fun h3 => hmain.trans h3⟩

/-- C10 witness: an empty string stored in the shared tier is not observable
through get when the local tier is empty. -/
theorem get_shared_empty_string_miss_witness :
    CacheService.get { redisConnected := true, redisStore := [("k:en", "")], memoryCache := [] }
      0 "k" "en" = none :=
  (get_shared_empty_string_miss
    { redisConnected := true, redisStore := [("k:en", "")], memoryCache := [] }
    0 "k" "en" rfl (by decide)).2 rfl
